import Mathlib

/-!
Verification of the Huffman file compressor (`src/file_compressor.py`).

The development shallowly embeds the core of the program:
`HuffmanNode` (with its nullable children and `__lt__` ordering), the exact
`heapq` algorithms of CPython (`_siftdown`, `_siftup`, `heapify`, `heappop`,
`heappush`) that `build_huffman_tree` relies on, `generate_codes`, the bit
packing of `compress`, and the container parsing plus decode walk of
`decompress`.  Bytes are `Nat` values (a byte read from a file is in
`0..255`); a bit is a `Bool` (`false` for the character `0`, `true` for `1`).
Loops are written with an explicit fuel argument so that every definition is
structurally recursive (hence kernel-evaluable); the fuel supplied at each
call site dominates the loop variant, and the fuel-exhausted branch returns
exactly what the Python loop returns when its guard is false, so the
functions agree with the Python loops for every input.

Errors: `compress` returns `Except CompressError`; `CompressError.emptyInput`
models the "Cannot compress an empty file" early return (no output file is
written), `keyError` models a `KeyError` from `codes[byte]`, and `overflow`
models the `OverflowError` that `count.to_bytes(4, 'big')` raises for a count
of `2^32` or more.  `decompress` returns `Except DecompressError`;
`invalidHuffmanData` models the "Invalid Huffman data" early return (no
output file is written), and `attributeError` models the uncaught
`AttributeError` raised when the decode walk dereferences a `None` child
(`except (IOError, ValueError)` does not catch it).
-/

/- Model of the Python class `HuffmanNode`: a byte value (`some c`) or `None`
for internal nodes, a frequency, and two nullable children.  `OptNode` plays
the role of `Optional[HuffmanNode]`; the pair is a mutual inductive so that
structural recursion over the tree is available. -/
mutual
inductive HNode : Type where
  | mk : Option Nat → Nat → OptNode → OptNode → HNode
  deriving Repr
inductive OptNode : Type where
  | none : OptNode
  | some : HNode → OptNode
  deriving Repr
end

/-- Field accessor for `HuffmanNode.char`. -/
def HNode.char : HNode → Option Nat
  | .mk c _ _ _ => c

/-- Field accessor for `HuffmanNode.freq`. -/
def HNode.freq : HNode → Nat
  | .mk _ f _ _ => f

/-- Field accessor for `HuffmanNode.left`. -/
def HNode.left : HNode → OptNode
  | .mk _ _ l _ => l

/-- Field accessor for `HuffmanNode.right`. -/
def HNode.right : HNode → OptNode
  | .mk _ _ _ r => r

/-- Value of `self.char if self.char is not None else 256` in
`HuffmanNode.__lt__` (file_compressor.py line 17): the tie-break key. -/
def tieKey (n : HNode) : Nat :=
  match n.char with
  | some c => c
  | none => 256

/-- Model of `HuffmanNode.__lt__` (file_compressor.py lines 15-21): compare by
frequency, breaking ties by `tieKey`. -/
def nodeLt (a b : HNode) : Bool :=
  if a.freq = b.freq then decide (tieKey a < tieKey b)
  else decide (a.freq < b.freq)

/-- Placeholder element used for out-of-range `List.getD` reads.  Every read
performed by the heap algorithms below is in range at every call site, so the
placeholder value is never observed. -/
def dummyNode : HNode := HNode.mk (some 0) 0 OptNode.none OptNode.none

/-- Loop of CPython `heapq._siftdown(heap, startpos, pos)` after `newitem =
heap[pos]` has been read: while `pos > startpos`, compare `newitem` with the
parent; move the parent down and continue, or stop and store `newitem`.
`fuel` dominates `pos`; when `fuel = 0` the invariant forces `pos = 0`, and
the loop guard `startpos < pos` is false, so returning `heap.set pos newitem`
agrees with the Python loop. -/
def siftdownLoop (lt : α → α → Bool) (d : α) (newitem : α) :
    Nat → List α → Nat → Nat → List α
  | 0, heap, _, pos => heap.set pos newitem
  | fuel + 1, heap, startpos, pos =>
    if startpos < pos then
      let parentpos := (pos - 1) / 2
      let parent := heap.getD parentpos d
      if lt newitem parent then
        siftdownLoop lt d newitem fuel (heap.set pos parent) startpos parentpos
      else heap.set pos newitem
    else heap.set pos newitem

/-- Model of CPython `heapq._siftdown(heap, startpos, pos)`. -/
def pySiftdown (lt : α → α → Bool) (d : α) (heap : List α) (startpos pos : Nat) : List α :=
  siftdownLoop lt d (heap.getD pos d) pos heap startpos pos

/-- Loop of CPython `heapq._siftup(heap, pos)`: bubble the smaller child up
into `pos` until a childless position is reached; returns the final `pos`
together with the updated list.  `fuel` dominates `endpos - pos`; when
`fuel = 0` the invariant forces `endpos ≤ pos`, the guard
`2*pos + 1 < endpos` is false, and returning `(pos, heap)` agrees with the
Python loop. -/
def siftupLoop (lt : α → α → Bool) (d : α) (endpos : Nat) :
    Nat → List α → Nat → Nat × List α
  | 0, heap, pos => (pos, heap)
  | fuel + 1, heap, pos =>
    let childpos := 2 * pos + 1
    if childpos < endpos then
      let rightpos := childpos + 1
      let c :=
        if rightpos < endpos && !(lt (heap.getD childpos d) (heap.getD rightpos d)) then
          rightpos
        else childpos
      siftupLoop lt d endpos fuel (heap.set pos (heap.getD c d)) c
    else (pos, heap)

/-- Model of CPython `heapq._siftup(heap, pos)`: run the loop, store the saved
`newitem` at the final position, then restore the heap invariant upwards with
`_siftdown(heap, startpos, pos)`. -/
def pySiftup (lt : α → α → Bool) (d : α) (heap : List α) (pos : Nat) : List α :=
  let newitem := heap.getD pos d
  let r := siftupLoop lt d heap.length heap.length heap pos
  pySiftdown lt d (r.2.set r.1 newitem) pos r.1

/-- Loop of CPython `heapq.heapify(x)`: `for i in reversed(range(n//2)):
_siftup(x, i)`, counting `k` down from `n / 2`. -/
def heapifyAux (lt : α → α → Bool) (d : α) : Nat → List α → List α
  | 0, heap => heap
  | k + 1, heap => heapifyAux lt d k (pySiftup lt d heap k)

/-- Model of CPython `heapq.heapify(x)`. -/
def pyHeapify (lt : α → α → Bool) (d : α) (heap : List α) : List α :=
  heapifyAux lt d (heap.length / 2) heap

/-- Model of CPython `heapq.heappop(heap)`: remove the last element; if the
remainder is non-empty, return its head, move the removed element to position
0 and re-sift.  Returns the popped element and the new heap. -/
def pyHeappop (lt : α → α → Bool) (d : α) (heap : List α) : α × List α :=
  let lastelt := heap.getD (heap.length - 1) d
  let rest := heap.take (heap.length - 1)
  match rest with
  | [] => (lastelt, [])
  | r0 :: _ => (r0, pySiftup lt d (rest.set 0 lastelt) 0)

/-- Model of CPython `heapq.heappush(heap, item)`. -/
def pyHeappush (lt : α → α → Bool) (d : α) (heap : List α) (item : α) : List α :=
  let h := heap ++ [item]
  pySiftdown lt d h 0 (h.length - 1)

/-- Model of `build_frequency_table(data)` (file_compressor.py lines 33-37):
the count of each byte value in the input.  The Python function returns a
`defaultdict` whose keys are exactly the bytes occurring in `data`; it is
read only through `frequency.get(byte, 0)`, `sorted(frequency.items())`, and
`frequency.items()` filtered to positive counts, all of which depend only on
this counting function on the byte range `0..255` (bytes read from a file
always lie in that range). -/
def build_frequency_table (data : List Nat) : Nat → Nat :=
  fun b => data.count b

/-- Merge loop of `build_huffman_tree` (file_compressor.py lines 43-49):
while more than one node remains, pop the two smallest, merge them under a
fresh internal node, and push the merge.  Each iteration shrinks the heap by
one, so `fuel` one less than the length is enough; when `fuel = 0` the
invariant forces the length to be at most 1, and the loop guard is false. -/
def buildLoop : Nat → List HNode → List HNode
  | 0, heap => heap
  | fuel + 1, heap =>
    if 1 < heap.length then
      let p1 := pyHeappop nodeLt dummyNode heap
      let p2 := pyHeappop nodeLt dummyNode p1.2
      let merged := HNode.mk none (p1.1.freq + p2.1.freq) (OptNode.some p1.1) (OptNode.some p2.1)
      buildLoop fuel (pyHeappush nodeLt dummyNode p2.2 merged)
    else heap

/-- Model of `build_huffman_tree(frequency)` (file_compressor.py lines 39-50):
one leaf per byte value with positive count, in ascending byte order (this is
`sorted(frequency.items())` filtered to positive counts, both for the
compress-side `defaultdict` and for the decompress-side full 256-entry
table); heapify; merge down to a single root; `None` when no count is
positive. -/
def build_huffman_tree (freq : Nat → Nat) : OptNode :=
  let items := ((List.range 256).map (fun b => (b, freq b))).filter (fun p => decide (0 < p.2))
  let nodes := items.map (fun p => HNode.mk (some p.1) p.2 OptNode.none OptNode.none)
  let heap := pyHeapify nodeLt dummyNode nodes
  match buildLoop heap.length heap with
  | [] => OptNode.none
  | n :: _ => OptNode.some n

/- Model of `generate_codes(root, current_code, codes)` (file_compressor.py
lines 52-63) as the association list of `(byte, code)` entries in traversal
order (left subtree before right subtree, matching the dict insertion order;
the keys are pairwise distinct for every tree the program builds, so
first-match lookup agrees with dict lookup).  At a leaf the accumulated path
is recorded, except that an empty path is replaced by the one-bit code `0`.
-/
mutual
def generate_codes : OptNode → List Bool → List (Nat × List Bool)
  | .none, _ => []
  | .some n, cur => generateCodesNode n cur
def generateCodesNode : HNode → List Bool → List (Nat × List Bool)
  | .mk (some c) _ _ _, cur => [(c, if cur ≠ [] then cur else [false])]
  | .mk none _ l r, cur =>
    generate_codes l (cur ++ [false]) ++ generate_codes r (cur ++ [true])
end

/-- Lookup of `codes[byte]`: the first entry with the given key, or `none`
(modelling a `KeyError`). -/
def lookupCode (codes : List (Nat × List Bool)) (b : Nat) : Option (List Bool) :=
  match codes.find? (fun p => p.1 == b) with
  | some p => some p.2
  | none => none

/-- Concatenation `''.join(codes[byte] for byte in data)` (file_compressor.py
line 80); `none` if some byte has no code (a `KeyError`). -/
def encodeAll (codes : List (Nat × List Bool)) : List Nat → Option (List Bool)
  | [] => some []
  | b :: rest =>
    match lookupCode codes b, encodeAll codes rest with
    | some c, some r => some (c ++ r)
    | _, _ => none

/-- Value of `int(s, 2)` on a bit string. -/
def bitsToNat (bits : List Bool) : Nat :=
  bits.foldl (fun a b => 2 * a + cond b 1 0) 0

/-- Model of `bytearray(int(encoded_bits[i:i+8], 2) for i in range(0,
len(encoded_bits), 8))` (file_compressor.py line 83): split into 8-bit
chunks, most significant bit first; a final chunk shorter than 8 bits is
converted as the shorter bit string, exactly as `int(s, 2)` would. -/
def pack8 : List Bool → List Nat
  | b0 :: b1 :: b2 :: b3 :: b4 :: b5 :: b6 :: b7 :: rest =>
    bitsToNat [b0, b1, b2, b3, b4, b5, b6, b7] :: pack8 rest
  | [] => []
  | rest => [bitsToNat rest]

/-- Value of `n.to_bytes(4, 'big')` for `n < 2^32` as a list of 4 byte
values, most significant first. -/
def toBytesBE4 (n : Nat) : List Nat :=
  [n / 16777216 % 256, n / 65536 % 256, n / 256 % 256, n % 256]

/-- Value of `int.from_bytes(bs, 'big')` on a byte list of any length
(including the empty read at the end of a short file, which yields 0). -/
def fromBytesBE (bs : List Nat) : Nat :=
  bs.foldl (fun a x => 256 * a + x) 0

/-- Serialized frequency table of `compress` (file_compressor.py lines
88-89): for each byte value `0..255` in order, `frequency.get(byte,
0).to_bytes(4, 'big')`. -/
def freqChunks (freq : Nat → Nat) : List (List Nat) :=
  (List.range 256).map (fun b => toBytesBE4 (freq b))

/-- Error outcomes of `compress`. -/
inductive CompressError : Type where
  | emptyInput : CompressError
  | keyError : CompressError
  | overflow : CompressError
  deriving Repr, DecidableEq

/-- Error outcomes of `decompress`. -/
inductive DecompressError : Type where
  | invalidHuffmanData : DecompressError
  | attributeError : DecompressError
  deriving Repr, DecidableEq

/-- Model of `compress(input_path, output_path)` (file_compressor.py lines
65-96) on the bytes read from the input file, returning the bytes of the
container file it writes.  An `Except.error` result models an execution that
writes no complete container: the empty-input early return happens before the
output file is opened; a `KeyError` from `codes[byte]` would be raised on
line 80, also before opening the output; an `OverflowError` from
`to_bytes(4, 'big')` (count at least `2^32`) would be raised while writing
the frequency table.  The `0 <= byte <= 255` guarantee for bytes read from a
file makes the range-256 frequency check equivalent to checking every key of
the Python dict. -/
def compress (data : List Nat) : Except CompressError (List Nat) :=
  if data = [] then .error .emptyInput
  else
    let freq := build_frequency_table data
    let root := build_huffman_tree freq
    let codes := generate_codes root []
    match encodeAll codes data with
    | none => .error .keyError
    | some encodedBits =>
      let padding := (8 - encodedBits.length % 8) % 8
      let padded := encodedBits ++ List.replicate padding false
      let encodedBytes := pack8 padded
      if (List.range 256).all (fun b => decide (freq b < 4294967296)) then
        .ok ((freqChunks freq).flatten ++ padding :: encodedBytes)
      else .error .overflow

/-- Value of `f"{byte:08b}"` for a byte value `0..255` as 8 bits, most
significant first (file_compressor.py line 114). -/
def byteToBits (b : Nat) : List Bool :=
  [decide (b / 128 % 2 = 1), decide (b / 64 % 2 = 1), decide (b / 32 % 2 = 1),
   decide (b / 16 % 2 = 1), decide (b / 8 % 2 = 1), decide (b / 4 % 2 = 1),
   decide (b / 2 % 2 = 1), decide (b % 2 = 1)]

/-- Decode walk of `decompress` (file_compressor.py lines 118-124): for each
bit move to the left (`0`) or right (`1`) child of the current node; on
reaching a node with a byte value, emit it and reset to the root.  Moving to
a `None` child models the `AttributeError` that `current_node.char` then
raises; the walk returns `none` in that case. -/
def decodeBits (root : HNode) : List Bool → HNode → Option (List Nat)
  | [], _ => some []
  | bit :: rest, cur =>
    match (if bit then cur.right else cur.left) with
    | .none => none
    | .some nxt =>
      match nxt.char with
      | some c =>
        match decodeBits root rest root with
        | some res => some (c :: res)
        | none => none
      | none => decodeBits root rest nxt

/-- Model of `decompress(input_path, output_path)` (file_compressor.py lines
98-134) on the bytes of the input file, returning the bytes it writes to the
output file.  Each `f.read(k)` on a file that is about to end returns the
remaining (possibly zero) bytes, and `int.from_bytes` accepts the short
string, which is why the counts are read as `take 4` slices with no length
check.  An `Except.error` result models an execution that writes no output
file: the "Invalid Huffman data" early return, or the uncaught
`AttributeError` of the decode walk. -/
def decompress (file : List Nat) : Except DecompressError (List Nat) :=
  let freq : Nat → Nat := fun b => fromBytesBE ((file.drop (4 * b)).take 4)
  let padding := fromBytesBE ((file.drop 1024).take 1)
  let encodedBytes := file.drop 1025
  match build_huffman_tree freq with
  | .none => .error .invalidHuffmanData
  | .some root =>
    let bits := (encodedBytes.map byteToBits).flatten
    let trimmed := if 0 < padding then bits.take (bits.length - padding) else bits
    match decodeBits root trimmed root with
    | none => .error .attributeError
    | some out => .ok out

/-- Concatenated code bits of `compress` for a given input (the value of
`encoded_bits` on file_compressor.py line 80), if every byte has a code. -/
def encodedBitsOf (data : List Nat) : Option (List Bool) :=
  encodeAll (generate_codes (build_huffman_tree (build_frequency_table data)) []) data

/-- Pad length computed by `compress` (file_compressor.py line 81). -/
def paddingOf (data : List Nat) : Nat :=
  (8 - ((encodedBitsOf data).getD []).length % 8) % 8

/-- Packed payload bytes written by `compress` (file_compressor.py line 83).
-/
def payloadOf (data : List Nat) : List Nat :=
  pack8 (((encodedBitsOf data).getD []) ++ List.replicate (paddingOf data) false)

/-- Byte values `0..255` with positive frequency, in ascending order: the
leaf alphabet of `build_huffman_tree`. -/
def supportList (freq : Nat → Nat) : List Nat :=
  (List.range 256).filter (fun b => decide (0 < freq b))

/- Byte values stored at the leaves of a tree, in left-to-right order.  A
node with a byte value counts as a leaf regardless of its children, matching
the early return of `generate_codes`. -/
mutual
def leafChars : HNode → List Nat
  | .mk (some c) _ _ _ => [c]
  | .mk none _ l r => leafCharsO l ++ leafCharsO r
def leafCharsO : OptNode → List Nat
  | .none => []
  | .some n => leafChars n
end

/-- Concatenated leaf byte values of all trees in a list. -/
def charsOf (heap : List HNode) : List Nat :=
  (heap.map leafChars).flatten

/- Structural soundness of a tree for the decode walk: every node without a
byte value (an internal node) has two non-`None` children, recursively.  The
decode walk only dereferences children of such nodes. -/
mutual
def okNode : HNode → Bool
  | .mk (some _) _ _ _ => true
  | .mk none _ l r => okOpt l && okOpt r
def okOpt : OptNode → Bool
  | .none => false
  | .some n => okNode n
end

/-- Container produced by `compress` on the one-byte input `[0x41]`: count 1
for byte `0x41` at offsets `260..263`, pad byte 7, one payload byte 0. -/
def container65 : List Nat :=
  List.replicate 260 0 ++ [0, 0, 0, 1] ++ List.replicate 760 0 ++ [7, 0]

/-- Container produced by `compress` on the input `[0x42, 0x42]`: count 2 for
byte `0x42` at offsets `264..267`, pad byte 6, one payload byte 0. -/
def container66 : List Nat :=
  List.replicate 264 0 ++ [0, 0, 0, 2] ++ List.replicate 756 0 ++ [6, 0]

/-- Container produced by `compress` on the input `[0x41, 0x41, 0x42]`:
count 2 for byte `0x41`, count 1 for byte `0x42`, pad byte 5, one payload
byte `0b11000000 = 192`. -/
def containerAAB : List Nat :=
  List.replicate 260 0 ++ [0, 0, 0, 2, 0, 0, 0, 1] ++ List.replicate 756 0 ++ [5, 192]

/-- Witness frequency table: byte `0x41` twice, byte `0x42` once. -/
def wFreq : Nat → Nat :=
  fun b => if b = 65 then 2 else if b = 66 then 1 else 0

/-- Tail-recursive equality test on byte lists, used so that concrete runs of
`compress` and `decompress` on full 1026-byte containers can be checked by
kernel reduction in constant stack space. -/
def natListBeq : List Nat → List Nat → Bool
  | [], [] => true
  | a :: as, b :: bs => if a = b then natListBeq as bs else false
  | _, _ => false

/-- Checker: `compress data` succeeds and outputs exactly `out`. -/
def compressOutIs (data out : List Nat) : Bool :=
  match compress data with
  | .ok c => natListBeq c out
  | .error _ => false

/-- Checker: `decompress file` succeeds and outputs exactly `out`. -/
def decompressOutIs (file out : List Nat) : Bool :=
  match decompress file with
  | .ok c => natListBeq c out
  | .error _ => false

/-- Checker: `decompress file` aborts with the uncaught `AttributeError` of
the decode walk. -/
def decompressCrashes (file : List Nat) : Bool :=
  match decompress file with
  | .error .attributeError => true
  | _ => false

/-! ## Generic list lemmas -/

theorem set_getD_self {α : Type} (d : α) :
    ∀ (l : List α) (i : Nat), i < l.length → l.set i (l.getD i d) = l := by
  intro l
  induction l with
  | nil => intro i h; simp at h
  | cons a t ih =>
    intro i h
    cases i with
    | zero => simp
    | succ j =>
      simp only [List.set_cons_succ, List.getD_cons_succ]
      simp only [List.length_cons, Nat.succ_lt_succ_iff] at h
      rw [ih j h]

theorem getD_set_self {α : Type} (d x : α) :
    ∀ (l : List α) (i : Nat), i < l.length → (l.set i x).getD i d = x := by
  intro l
  induction l with
  | nil => intro i h; simp at h
  | cons a t ih =>
    intro i h
    cases i with
    | zero => simp
    | succ j =>
      simp only [List.set_cons_succ, List.getD_cons_succ]
      simp only [List.length_cons, Nat.succ_lt_succ_iff] at h
      exact ih j h

theorem perm_head_set {α : Type} (d x : α) :
    ∀ (t : List α) (j : Nat), j < t.length →
      List.Perm (t.getD j d :: t.set j x) (x :: t) := by
  intro t
  induction t with
  | nil => intro j h; simp at h
  | cons b s ih =>
    intro j h
    cases j with
    | zero => simpa using List.Perm.swap x b s
    | succ i =>
      simp only [List.set_cons_succ, List.getD_cons_succ]
      simp only [List.length_cons, Nat.succ_lt_succ_iff] at h
      exact ((List.Perm.swap b (s.getD i d) (s.set i x)).trans
        (List.Perm.cons b (ih i h))).trans (List.Perm.swap x b s)

theorem perm_set_exchange {α : Type} (a x : α) :
    ∀ (t : List α) (i : Nat), i < t.length →
      List.Perm (x :: t.set i a) (a :: t.set i x) := by
  intro t
  induction t with
  | nil => intro i h; simp at h
  | cons b s ih =>
    intro i h
    cases i with
    | zero => simpa using List.Perm.swap a x s
    | succ j =>
      simp only [List.set_cons_succ]
      simp only [List.length_cons, Nat.succ_lt_succ_iff] at h
      exact ((List.Perm.swap b x (s.set j a)).trans
        (List.Perm.cons b (ih j h))).trans (List.Perm.swap a b (s.set j x))

theorem swap_set {α : Type} (d x : α) :
    ∀ (l : List α) (p q : Nat), p < l.length → q < l.length → p ≠ q →
      List.Perm ((l.set p (l.getD q d)).set q x) (l.set p x) := by
  intro l
  induction l with
  | nil => intro p q hp _ _; simp at hp
  | cons a t ih =>
    intro p q hp hq hne
    cases p with
    | zero =>
      cases q with
      | zero => exact absurd rfl hne
      | succ j =>
        simp only [List.set_cons_zero, List.set_cons_succ, List.getD_cons_succ]
        simp only [List.length_cons, Nat.succ_lt_succ_iff] at hq
        exact perm_head_set d x t j hq
    | succ i =>
      cases q with
      | zero =>
        simp only [List.set_cons_zero, List.set_cons_succ, List.getD_cons_zero]
        simp only [List.length_cons, Nat.succ_lt_succ_iff] at hp
        exact perm_set_exchange a x t i hp
      | succ j =>
        simp only [List.set_cons_succ, List.getD_cons_succ]
        simp only [List.length_cons, Nat.succ_lt_succ_iff] at hp hq
        exact List.Perm.cons a (ih i j hp hq (fun h => hne (congrArg Nat.succ h)))

/-! ## Permutation and length facts for the heapq model -/

theorem siftdownLoop_length {α : Type} (lt : α → α → Bool) (d newitem : α) :
    ∀ (fuel : Nat) (heap : List α) (startpos pos : Nat),
      (siftdownLoop lt d newitem fuel heap startpos pos).length = heap.length := by
  intro fuel
  induction fuel with
  | zero => intro heap s p; simp [siftdownLoop]
  | succ f ih =>
    intro heap s p
    simp only [siftdownLoop]
    split
    · split
      · rw [ih]; simp
      · simp
    · simp

theorem siftdownLoop_perm {α : Type} (lt : α → α → Bool) (d newitem : α) :
    ∀ (fuel : Nat) (heap : List α) (startpos pos : Nat), pos < heap.length →
      List.Perm (siftdownLoop lt d newitem fuel heap startpos pos) (heap.set pos newitem) := by
  intro fuel
  induction fuel with
  | zero => intro heap s p _; exact List.Perm.refl _
  | succ f ih =>
    intro heap s p hp
    simp only [siftdownLoop]
    split
    · split
      · rename_i hsp hlt
        have hpp : (p - 1) / 2 < p := by
          have : (p - 1) / 2 ≤ p - 1 := Nat.div_le_self _ _
          omega
        have h1 : (p - 1) / 2 < (heap.set p (heap.getD ((p - 1) / 2) d)).length := by
          rw [List.length_set]; omega
        have h2 := ih (heap.set p (heap.getD ((p - 1) / 2) d)) s ((p - 1) / 2) h1
        refine h2.trans ?_
        exact swap_set d newitem heap p ((p - 1) / 2) hp (by omega) (by omega)
      · exact List.Perm.refl _
    · exact List.Perm.refl _

theorem siftupLoop_length {α : Type} (lt : α → α → Bool) (d : α) (endpos : Nat) :
    ∀ (fuel : Nat) (heap : List α) (pos : Nat),
      (siftupLoop lt d endpos fuel heap pos).2.length = heap.length := by
  intro fuel
  induction fuel with
  | zero => intro heap p; simp [siftupLoop]
  | succ f ih =>
    intro heap p
    simp only [siftupLoop]
    split
    · rw [ih]; simp
    · simp

theorem siftupLoop_fst_lt {α : Type} (lt : α → α → Bool) (d : α) (endpos : Nat) :
    ∀ (fuel : Nat) (heap : List α) (pos : Nat), pos < endpos →
      (siftupLoop lt d endpos fuel heap pos).1 < endpos := by
  intro fuel
  induction fuel with
  | zero => intro heap p hp; simpa [siftupLoop] using hp
  | succ f ih =>
    intro heap p hp
    simp only [siftupLoop]
    split
    · rename_i hc
      apply ih
      split
      · rename_i hr
        exact (Bool.and_eq_true _ _ |>.mp hr).1 |> of_decide_eq_true
      · exact hc
    · simpa using hp

theorem siftupLoop_perm {α : Type} (lt : α → α → Bool) (d x : α) (endpos : Nat) :
    ∀ (fuel : Nat) (heap : List α) (pos : Nat), pos < heap.length → endpos ≤ heap.length →
      List.Perm ((siftupLoop lt d endpos fuel heap pos).2.set
        (siftupLoop lt d endpos fuel heap pos).1 x) (heap.set pos x) := by
  intro fuel
  induction fuel with
  | zero => intro heap p _ _; exact List.Perm.refl _
  | succ f ih =>
    intro heap p hp hend
    simp only [siftupLoop]
    split
    · rename_i hc
      set c := if 2 * p + 1 + 1 < endpos &&
          !lt (heap.getD (2 * p + 1) d) (heap.getD (2 * p + 1 + 1) d) then
          2 * p + 1 + 1 else 2 * p + 1 with hcdef
      have hcp : p < c := by
        rw [hcdef]; split <;> omega
      have hclt : c < endpos := by
        rw [hcdef]; split
        · rename_i hr
          exact of_decide_eq_true (Bool.and_eq_true _ _ |>.mp hr).1
        · exact hc
      have h1 : c < (heap.set p (heap.getD c d)).length := by
        rw [List.length_set]; omega
      have h2 := ih (heap.set p (heap.getD c d)) c h1 (by rw [List.length_set]; exact hend)
      refine h2.trans ?_
      exact swap_set d x heap p c hp (by omega) (by omega)
    · exact List.Perm.refl _

theorem getD_append_cons {α : Type} (d y : α) :
    ∀ (l1 t : List α), (l1 ++ y :: t).getD l1.length d = y := by
  intro l1 t
  induction l1 with
  | nil => rfl
  | cons a s ih => simpa using ih

theorem pySiftup_perm {α : Type} (lt : α → α → Bool) (d : α) (heap : List α) (pos : Nat)
    (hp : pos < heap.length) : List.Perm (pySiftup lt d heap pos) heap := by
  simp only [pySiftup, pySiftdown]
  have hlen := siftupLoop_length lt d heap.length heap.length heap pos
  have hlt := siftupLoop_fst_lt lt d heap.length heap.length heap pos hp
  set r := siftupLoop lt d heap.length heap.length heap pos with hr
  have h1 : r.1 < r.2.length := by rw [hlen]; exact hlt
  have hget : (r.2.set r.1 (heap.getD pos d)).getD r.1 d = heap.getD pos d :=
    getD_set_self d _ r.2 r.1 h1
  rw [hget]
  have h2 : r.1 < (r.2.set r.1 (heap.getD pos d)).length := by
    rw [List.length_set]; exact h1
  have h3 := siftdownLoop_perm lt d (heap.getD pos d) r.1
    (r.2.set r.1 (heap.getD pos d)) pos r.1 h2
  rw [List.set_set] at h3
  have h4 := siftupLoop_perm lt d (heap.getD pos d) heap.length heap.length heap pos hp
    (Nat.le_refl _)
  rw [← hr] at h4
  refine (h3.trans h4).trans ?_
  rw [set_getD_self d heap pos hp]

theorem pySiftup_length {α : Type} (lt : α → α → Bool) (d : α) (heap : List α) (pos : Nat)
    (hp : pos < heap.length) : (pySiftup lt d heap pos).length = heap.length :=
  (pySiftup_perm lt d heap pos hp).length_eq

theorem heapifyAux_perm {α : Type} (lt : α → α → Bool) (d : α) :
    ∀ (k : Nat) (heap : List α), k ≤ heap.length →
      List.Perm (heapifyAux lt d k heap) heap := by
  intro k
  induction k with
  | zero => intro heap _; exact List.Perm.refl _
  | succ j ih =>
    intro heap hk
    simp only [heapifyAux]
    have hj : j < heap.length := hk
    have hperm := pySiftup_perm lt d heap j hj
    have hlen := hperm.length_eq
    exact (ih (pySiftup lt d heap j) (by omega)).trans hperm

theorem pyHeapify_perm {α : Type} (lt : α → α → Bool) (d : α) (heap : List α) :
    List.Perm (pyHeapify lt d heap) heap :=
  heapifyAux_perm lt d (heap.length / 2) heap (Nat.div_le_self _ _)

theorem take_getD_last {α : Type} (d : α) :
    ∀ (l : List α), l ≠ [] → l = l.take (l.length - 1) ++ [l.getD (l.length - 1) d] := by
  intro l hne
  have hlen : 0 < l.length := List.length_pos.mpr hne
  have h1 : l.take (l.length - 1) = l.dropLast := (List.dropLast_eq_take l).symm
  have h2 : l.getD (l.length - 1) d = l.getLast hne := by
    rw [List.getD_eq_getElem l d (by omega), List.getLast_eq_getElem]
  rw [h1, h2, List.dropLast_append_getLast]

theorem pyHeappop_perm {α : Type} (lt : α → α → Bool) (d : α) (heap : List α)
    (hne : heap ≠ []) :
    List.Perm ((pyHeappop lt d heap).1 :: (pyHeappop lt d heap).2) heap := by
  simp only [pyHeappop]
  split
  · rename_i heq
    have h0 := take_getD_last d heap hne
    rw [heq] at h0
    simp only [List.nil_append] at h0
    rw [← h0]
  · rename_i r0 rtail heq
    rw [heq]
    simp only [List.set_cons_zero]
    set le := heap.getD (heap.length - 1) d with hle
    have h0 := take_getD_last d heap hne
    rw [heq, ← hle] at h0
    have hperm := pySiftup_perm lt d (le :: rtail) 0 (by simp)
    have h1 : List.Perm (le :: rtail) (rtail ++ [le]) :=
      (List.perm_append_singleton _ _).symm
    refine (List.Perm.cons r0 (hperm.trans h1)).trans ?_
    rw [h0]
    exact List.Perm.refl _

theorem pyHeappop_length {α : Type} (lt : α → α → Bool) (d : α) (heap : List α)
    (hne : heap ≠ []) : (pyHeappop lt d heap).2.length = heap.length - 1 := by
  have h := (pyHeappop_perm lt d heap hne).length_eq
  simp only [List.length_cons] at h
  omega

theorem pyHeappush_perm {α : Type} (lt : α → α → Bool) (d : α) (heap : List α) (x : α) :
    List.Perm (pyHeappush lt d heap x) (heap ++ [x]) := by
  simp only [pyHeappush, pySiftdown]
  have hlen : (heap ++ [x]).length - 1 = heap.length := by simp
  have hget : (heap ++ [x]).getD ((heap ++ [x]).length - 1) d = x := by
    rw [hlen]; exact getD_append_cons d x heap []
  have hidx : (heap ++ [x]).length - 1 < (heap ++ [x]).length := by simp
  have h1 := siftdownLoop_perm lt d ((heap ++ [x]).getD ((heap ++ [x]).length - 1) d)
    ((heap ++ [x]).length - 1) (heap ++ [x]) 0 ((heap ++ [x]).length - 1) hidx
  refine h1.trans ?_
  rw [set_getD_self d (heap ++ [x]) ((heap ++ [x]).length - 1) hidx]

theorem pyHeappush_length {α : Type} (lt : α → α → Bool) (d : α) (heap : List α) (x : α) :
    (pyHeappush lt d heap x).length = heap.length + 1 := by
  have h := (pyHeappush_perm lt d heap x).length_eq
  simpa using h

/-! ## Leaf multiset and soundness through the merge loop -/

theorem charsOf_perm {l1 l2 : List HNode} (h : List.Perm l1 l2) :
    List.Perm (charsOf l1) (charsOf l2) :=
  (h.map leafChars).flatten

theorem charsOf_cons (x : HNode) (l : List HNode) :
    charsOf (x :: l) = leafChars x ++ charsOf l := by
  simp [charsOf]

theorem charsOf_append (l1 l2 : List HNode) :
    charsOf (l1 ++ l2) = charsOf l1 ++ charsOf l2 := by
  simp [charsOf]

theorem leafChars_merged (a b : HNode) (f : Nat) :
    leafChars (HNode.mk none f (OptNode.some a) (OptNode.some b)) =
      leafChars a ++ leafChars b := by
  simp [leafChars, leafCharsO]

theorem buildLoop_fixed (heap : List HNode) (h : ¬ 1 < heap.length) :
    ∀ fuel, buildLoop fuel heap = heap := by
  intro fuel
  cases fuel with
  | zero => rfl
  | succ f => simp [buildLoop, h]

theorem buildLoop_single :
    ∀ (fuel : Nat) (heap : List HNode), heap.length ≤ fuel + 1 → 1 ≤ heap.length →
      ∃ root, buildLoop fuel heap = [root] ∧
        List.Perm (leafChars root) (charsOf heap) := by
  intro fuel
  induction fuel with
  | zero =>
    intro heap h1 h2
    have : heap.length = 1 := by omega
    obtain ⟨x, hx⟩ := List.length_eq_one.mp this
    refine ⟨x, by rw [hx]; rfl, ?_⟩
    rw [hx, charsOf_cons]
    simp [charsOf]
  | succ f ih =>
    intro heap h1 h2
    by_cases hgt : 1 < heap.length
    · have hne : heap ≠ [] := by
        intro h; rw [h] at hgt; simp at hgt
      simp only [buildLoop, if_pos hgt]
      set p1 := pyHeappop nodeLt dummyNode heap with hp1def
      have hp1 : List.Perm (p1.1 :: p1.2) heap := pyHeappop_perm nodeLt dummyNode heap hne
      have hlen1 : p1.2.length = heap.length - 1 := pyHeappop_length nodeLt dummyNode heap hne
      have hne2 : p1.2 ≠ [] := by
        intro h; rw [h] at hlen1; simp at hlen1; omega
      set p2 := pyHeappop nodeLt dummyNode p1.2 with hp2def
      have hp2 : List.Perm (p2.1 :: p2.2) p1.2 := pyHeappop_perm nodeLt dummyNode p1.2 hne2
      have hlen2 : p2.2.length = p1.2.length - 1 := pyHeappop_length nodeLt dummyNode p1.2 hne2
      set merged := HNode.mk none (p1.1.freq + p2.1.freq) (OptNode.some p1.1)
        (OptNode.some p2.1) with hmdef
      set h3 := pyHeappush nodeLt dummyNode p2.2 merged with h3def
      have hp3 : List.Perm h3 (p2.2 ++ [merged]) := pyHeappush_perm nodeLt dummyNode p2.2 merged
      have hlen3 : h3.length = heap.length - 1 := by
        rw [h3def, pyHeappush_length]; omega
      obtain ⟨root, hroot, hchars⟩ := ih h3 (by omega) (by omega)
      refine ⟨root, hroot, ?_⟩
      refine hchars.trans ?_
      have e1 : List.Perm (charsOf h3) (charsOf p2.2 ++ (leafChars p1.1 ++ leafChars p2.1)) := by
        refine (charsOf_perm hp3).trans ?_
        rw [charsOf_append, charsOf_cons, hmdef, leafChars_merged]
        simp [charsOf]
      have e2 : List.Perm (charsOf heap)
          (leafChars p1.1 ++ (leafChars p2.1 ++ charsOf p2.2)) := by
        refine (charsOf_perm hp1.symm).trans ?_
        rw [charsOf_cons]
        exact List.Perm.append_left _ ((charsOf_perm hp2.symm).trans (by rw [charsOf_cons]))
      refine e1.trans ?_
      refine ((List.perm_append_comm).trans ?_).trans e2.symm
      rw [List.append_assoc]
    · simp only [buildLoop_fixed heap hgt]
      have : heap.length = 1 := by omega
      obtain ⟨x, hx⟩ := List.length_eq_one.mp this
      refine ⟨x, by rw [hx], ?_⟩
      rw [hx, charsOf_cons]
      simp [charsOf]

theorem buildLoop_ok :
    ∀ (fuel : Nat) (heap : List HNode), heap.length ≤ fuel + 1 → 2 ≤ heap.length →
      (∀ x ∈ heap, okNode x = true) →
      ∃ root, buildLoop fuel heap = [root] ∧ okNode root = true ∧ root.char = none := by
  intro fuel
  induction fuel with
  | zero => intro heap h1 h2 _; omega
  | succ f ih =>
    intro heap h1 h2 hok
    have hgt : 1 < heap.length := h2
    have hne : heap ≠ [] := by
      intro h; rw [h] at hgt; simp at hgt
    simp only [buildLoop, if_pos hgt]
    set p1 := pyHeappop nodeLt dummyNode heap with hp1def
    have hp1 : List.Perm (p1.1 :: p1.2) heap := pyHeappop_perm nodeLt dummyNode heap hne
    have hlen1 : p1.2.length = heap.length - 1 := pyHeappop_length nodeLt dummyNode heap hne
    have hne2 : p1.2 ≠ [] := by
      intro h; rw [h] at hlen1; simp at hlen1; omega
    set p2 := pyHeappop nodeLt dummyNode p1.2 with hp2def
    have hp2 : List.Perm (p2.1 :: p2.2) p1.2 := pyHeappop_perm nodeLt dummyNode p1.2 hne2
    have hlen2 : p2.2.length = p1.2.length - 1 := pyHeappop_length nodeLt dummyNode p1.2 hne2
    have hokp1 : okNode p1.1 = true := hok _ (hp1.mem_iff.mp (List.mem_cons_self _ _))
    have hsub1 : ∀ x ∈ p1.2, okNode x = true := fun x hx =>
      hok _ (hp1.mem_iff.mp (List.mem_cons_of_mem _ hx))
    have hokp2 : okNode p2.1 = true := hsub1 _ (hp2.mem_iff.mp (List.mem_cons_self _ _))
    have hsub2 : ∀ x ∈ p2.2, okNode x = true := fun x hx =>
      hsub1 _ (hp2.mem_iff.mp (List.mem_cons_of_mem _ hx))
    set merged := HNode.mk none (p1.1.freq + p2.1.freq) (OptNode.some p1.1)
      (OptNode.some p2.1) with hmdef
    have hokm : okNode merged = true := by
      rw [hmdef]
      simp only [okNode, okOpt, Bool.and_eq_true]
      exact ⟨hokp1, hokp2⟩
    set h3 := pyHeappush nodeLt dummyNode p2.2 merged with h3def
    have hp3 : List.Perm h3 (p2.2 ++ [merged]) := pyHeappush_perm nodeLt dummyNode p2.2 merged
    have hlen3 : h3.length = heap.length - 1 := by
      rw [h3def, pyHeappush_length]; omega
    have hok3 : ∀ x ∈ h3, okNode x = true := by
      intro x hx
      have := hp3.mem_iff.mp hx
      rcases List.mem_append.mp this with h | h
      · exact hsub2 _ h
      · rw [List.mem_singleton.mp h]; exact hokm
    by_cases hlen2' : 2 ≤ h3.length
    · exact ih h3 (by omega) hlen2' hok3
    · have h31 : h3.length = 1 := by omega
      have hp22nil : p2.2 = [] := by
        have : p2.2.length = 0 := by omega
        exact List.length_eq_zero.mp this
      have h3eq : h3 = [merged] := by
        apply List.perm_singleton.mp
        rw [hp22nil] at hp3
        simpa using hp3
      rw [h3eq, buildLoop_fixed [merged] (by simp)]
      exact ⟨merged, rfl, hokm, rfl⟩

/-! ## The initial leaf list of the tree builder -/

theorem mapfst_filter_pairs (freq : Nat → Nat) :
    ∀ (l : List Nat),
      (((l.map (fun b => (b, freq b))).filter (fun p => decide (0 < p.2))).map Prod.fst) =
        l.filter (fun b => decide (0 < freq b)) := by
  intro l
  induction l with
  | nil => rfl
  | cons a t ih =>
    simp only [List.map_cons, List.filter_cons]
    cases h : decide (0 < freq a) with
    | false => simpa [h] using ih
    | true => simpa [h] using ih

theorem charsOf_leaf_map :
    ∀ (items : List (Nat × Nat)),
      charsOf (items.map (fun p => HNode.mk (some p.1) p.2 OptNode.none OptNode.none)) =
        items.map Prod.fst := by
  intro items
  induction items with
  | nil => rfl
  | cons p t ih =>
    simp only [List.map_cons, charsOf_cons, leafChars]
    rw [ih]
    rfl

theorem mem_supportList (freq : Nat → Nat) (b : Nat) :
    b ∈ supportList freq ↔ b < 256 ∧ 0 < freq b := by
  simp [supportList, List.mem_filter, List.mem_range, and_comm]

theorem two_mem_length {α : Type} (l : List α) (a b : α)
    (ha : a ∈ l) (hb : b ∈ l) (hab : a ≠ b) : 2 ≤ l.length := by
  cases l with
  | nil => simp at ha
  | cons x t =>
    cases t with
    | nil =>
      rw [List.mem_singleton] at ha hb
      exact absurd (ha.trans hb.symm) hab
    | cons y s => simp [List.length_cons]

/-- Leaves handed to the heap by `build_huffman_tree`. -/
theorem build_tree_nodes (freq : Nat → Nat) :
    charsOf
      ((((List.range 256).map (fun b => (b, freq b))).filter
        (fun p => decide (0 < p.2))).map
          (fun p => HNode.mk (some p.1) p.2 OptNode.none OptNode.none)) =
      supportList freq := by
  rw [charsOf_leaf_map, mapfst_filter_pairs]
  rfl

theorem build_tree_perm (freq : Nat → Nat) (hne : ∃ b, b < 256 ∧ 0 < freq b) :
    ∃ root, build_huffman_tree freq = OptNode.some root ∧
      List.Perm (leafChars root) (supportList freq) := by
  obtain ⟨b, hb, hf⟩ := hne
  have hmem : b ∈ supportList freq := (mem_supportList freq b).mpr ⟨hb, hf⟩
  set items := ((List.range 256).map (fun b => (b, freq b))).filter
    (fun p => decide (0 < p.2)) with hitems
  set nodes := items.map (fun p => HNode.mk (some p.1) p.2 OptNode.none OptNode.none)
    with hnodes
  have hchars : charsOf nodes = supportList freq := build_tree_nodes freq
  have hlen : 1 ≤ nodes.length := by
    have h1 : (supportList freq).length = nodes.length := by
      rw [← hchars, hnodes, charsOf_leaf_map, List.length_map]
      simp [List.length_map]
    have h2 : supportList freq ≠ [] := List.ne_nil_of_mem hmem
    have h3 : 0 < (supportList freq).length := List.length_pos.mpr h2
    omega
  set heap := pyHeapify nodeLt dummyNode nodes with hheap
  have hperm : List.Perm heap nodes := pyHeapify_perm nodeLt dummyNode nodes
  have hlen2 : 1 ≤ heap.length := by rw [hperm.length_eq]; exact hlen
  obtain ⟨root, hroot, hrchars⟩ :=
    buildLoop_single heap.length heap (by omega) hlen2
  refine ⟨root, ?_, ?_⟩
  · show (match buildLoop heap.length heap with
      | [] => OptNode.none
      | n :: _ => OptNode.some n) = OptNode.some root
    rw [hroot]
  · refine hrchars.trans ?_
    refine (charsOf_perm hperm).trans ?_
    rw [hchars]

theorem build_tree_ok (freq : Nat → Nat) (b1 b2 : Nat) (h1 : b1 < 256) (h2 : b2 < 256)
    (hne : b1 ≠ b2) (hf1 : 0 < freq b1) (hf2 : 0 < freq b2) :
    ∃ root, build_huffman_tree freq = OptNode.some root ∧ okNode root = true ∧
      root.char = none := by
  have hm1 : b1 ∈ supportList freq := (mem_supportList freq b1).mpr ⟨h1, hf1⟩
  have hm2 : b2 ∈ supportList freq := (mem_supportList freq b2).mpr ⟨h2, hf2⟩
  have hslen : 2 ≤ (supportList freq).length := two_mem_length _ b1 b2 hm1 hm2 hne
  set items := ((List.range 256).map (fun b => (b, freq b))).filter
    (fun p => decide (0 < p.2)) with hitems
  set nodes := items.map (fun p => HNode.mk (some p.1) p.2 OptNode.none OptNode.none)
    with hnodes
  have hchars : charsOf nodes = supportList freq := build_tree_nodes freq
  have hnlen : 2 ≤ nodes.length := by
    have h1 : (supportList freq).length = items.length := by
      rw [← hchars, hnodes, charsOf_leaf_map, List.length_map]
    rw [hnodes, List.length_map]
    omega
  have hok : ∀ x ∈ nodes, okNode x = true := by
    intro x hx
    rw [hnodes] at hx
    obtain ⟨p, _, hp⟩ := List.mem_map.mp hx
    rw [← hp]
    rfl
  set heap := pyHeapify nodeLt dummyNode nodes with hheap
  have hperm : List.Perm heap nodes := pyHeapify_perm nodeLt dummyNode nodes
  have hlen2 : 2 ≤ heap.length := by rw [hperm.length_eq]; exact hnlen
  have hok2 : ∀ x ∈ heap, okNode x = true := fun x hx => hok x (hperm.mem_iff.mp hx)
  obtain ⟨root, hroot, hrok, hrchar⟩ :=
    buildLoop_ok heap.length heap (by omega) hlen2 hok2
  refine ⟨root, ?_, hrok, hrchar⟩
  show (match buildLoop heap.length heap with
    | [] => OptNode.none
    | n :: _ => OptNode.some n) = OptNode.some root
  rw [hroot]

/-! ## Code table facts -/

mutual
theorem genCodes_keys : ∀ (o : OptNode) (cur : List Bool),
    (generate_codes o cur).map Prod.fst = leafCharsO o
  | .none, _ => rfl
  | .some n, cur => genCodesNode_keys n cur
theorem genCodesNode_keys : ∀ (n : HNode) (cur : List Bool),
    (generateCodesNode n cur).map Prod.fst = leafChars n
  | .mk (some c) f l r, cur => rfl
  | .mk none f l r, cur => by
    show ((generate_codes l (cur ++ [false]) ++ generate_codes r (cur ++ [true])).map
      Prod.fst) = leafCharsO l ++ leafCharsO r
    rw [List.map_append, genCodes_keys l (cur ++ [false]), genCodes_keys r (cur ++ [true])]
end

mutual
theorem genCodes_cur_pre : ∀ (o : OptNode) (cur : List Bool), cur ≠ [] →
    ∀ p ∈ generate_codes o cur, cur <+: p.2
  | .none, _, _ => by intro p hp; simp [generate_codes] at hp
  | .some n, cur, h => genCodesNode_cur_pre n cur h
theorem genCodesNode_cur_pre : ∀ (n : HNode) (cur : List Bool), cur ≠ [] →
    ∀ p ∈ generateCodesNode n cur, cur <+: p.2
  | .mk (some c) f l r, cur, h => by
    intro p hp
    simp only [generateCodesNode, List.mem_singleton] at hp
    rw [hp]
    simp only [if_pos h]
    exact List.prefix_refl cur
  | .mk none f l r, cur, h => by
    intro p hp
    simp only [generateCodesNode, List.mem_append] at hp
    rcases hp with hp | hp
    · exact (List.prefix_append cur [false]).trans
        (genCodes_cur_pre l (cur ++ [false]) (by simp) p hp)
    · exact (List.prefix_append cur [true]).trans
        (genCodes_cur_pre r (cur ++ [true]) (by simp) p hp)
end

theorem no_pre_of_branch (cur c1 c2 : List Bool) (b1 b2 : Bool) (hne : b1 ≠ b2)
    (h1 : cur ++ [b1] <+: c1) (h2 : cur ++ [b2] <+: c2) : ¬ c1 <+: c2 := by
  intro h
  obtain ⟨t1, ht1⟩ := h1.trans h
  obtain ⟨t2, ht2⟩ := h2
  rw [← ht2] at ht1
  have hinj := List.append_inj ht1 (by simp)
  have hb : b1 = b2 := by
    have h3 : cur ++ [b1] = cur ++ [b2] := hinj.1
    simpa using h3
  exact hne hb

mutual
theorem genCodes_pairwise : ∀ (o : OptNode) (cur : List Bool),
    (generate_codes o cur).Pairwise (fun p q => ¬ p.2 <+: q.2 ∧ ¬ q.2 <+: p.2)
  | .none, _ => List.Pairwise.nil
  | .some n, cur => genCodesNode_pairwise n cur
theorem genCodesNode_pairwise : ∀ (n : HNode) (cur : List Bool),
    (generateCodesNode n cur).Pairwise (fun p q => ¬ p.2 <+: q.2 ∧ ¬ q.2 <+: p.2)
  | .mk (some c) f l r, cur => by
    simp [generateCodesNode]
  | .mk none f l r, cur => by
    show (generate_codes l (cur ++ [false]) ++ generate_codes r (cur ++ [true])).Pairwise _
    rw [List.pairwise_append]
    refine ⟨genCodes_pairwise l (cur ++ [false]), genCodes_pairwise r (cur ++ [true]), ?_⟩
    intro p hp q hq
    have h1 := genCodes_cur_pre l (cur ++ [false]) (by simp) p hp
    have h2 := genCodes_cur_pre r (cur ++ [true]) (by simp) q hq
    exact ⟨no_pre_of_branch cur p.2 q.2 false true (by simp) h1 h2,
      no_pre_of_branch cur q.2 p.2 true false (by simp) h2 h1⟩
end

/-! ## Safety of the decode walk -/

theorem decode_safe (root : HNode) (hr : okNode root = true) (hc : root.char = none) :
    ∀ (bits : List Bool) (cur : HNode), okNode cur = true → cur.char = none →
      (decodeBits root bits cur).isSome = true := by
  intro bits
  induction bits with
  | nil => intro cur _ _; rfl
  | cons bit rest ih =>
    intro cur hok hchar
    cases cur with
    | mk c f l r =>
      have hc0 : c = none := hchar
      subst hc0
      have hok' : okOpt l = true ∧ okOpt r = true := by
        have : okNode (HNode.mk none f l r) = (okOpt l && okOpt r) := rfl
        rw [this, Bool.and_eq_true] at hok
        exact hok
      cases l with
      | none => exact absurd hok'.1 (by simp [okOpt])
      | some nl =>
        cases r with
        | none => exact absurd hok'.2 (by simp [okOpt])
        | some nr =>
          have hnlok : okNode nl = true := hok'.1
          have hnrok : okNode nr = true := hok'.2
          cases bit with
          | false =>
            show (match OptNode.some nl with
              | .none => none
              | .some nxt =>
                match nxt.char with
                | some c =>
                  match decodeBits root rest root with
                  | some res => some (c :: res)
                  | none => none
                | none => decodeBits root rest nxt).isSome = true
            cases hnl : nl.char with
            | some c2 =>
              have hroot := ih root hr hc
              cases hm : decodeBits root rest root with
              | none => rw [hm] at hroot; simp at hroot
              | some res => simp [hnl, hm]
            | none =>
              have := ih nl hnlok hnl
              simpa [hnl] using this
          | true =>
            show (match OptNode.some nr with
              | .none => none
              | .some nxt =>
                match nxt.char with
                | some c =>
                  match decodeBits root rest root with
                  | some res => some (c :: res)
                  | none => none
                | none => decodeBits root rest nxt).isSome = true
            cases hnr : nr.char with
            | some c2 =>
              have hroot := ih root hr hc
              cases hm : decodeBits root rest root with
              | none => rw [hm] at hroot; simp at hroot
              | some res => simp [hnr, hm]
            | none =>
              have := ih nr hnrok hnr
              simpa [hnr] using this

/-! ## Container layout helpers -/

theorem len4_cases (c : List Nat) (h : c.length = 4) :
    ∃ a b x y, c = [a, b, x, y] := by
  rcases c with _ | ⟨a, c⟩
  · simp at h
  rcases c with _ | ⟨b, c⟩
  · simp at h
  rcases c with _ | ⟨x, c⟩
  · simp at h
  rcases c with _ | ⟨y, c⟩
  · simp at h
  rcases c with _ | ⟨z, c⟩
  · exact ⟨a, b, x, y, rfl⟩
  · simp at h

theorem flatten4_length :
    ∀ (chunks : List (List Nat)), (∀ c ∈ chunks, c.length = 4) →
      chunks.flatten.length = 4 * chunks.length := by
  intro chunks
  induction chunks with
  | nil => intro _; rfl
  | cons c cs ih =>
    intro h4
    have hc : c.length = 4 := h4 c (List.mem_cons_self _ _)
    have hcs := ih (fun x hx => h4 x (List.mem_cons_of_mem _ hx))
    simp only [List.flatten_cons, List.length_append, List.length_cons, hc, hcs]
    ring

theorem slice4 :
    ∀ (chunks : List (List Nat)) (k : Nat) (tail : List Nat),
      (∀ c ∈ chunks, c.length = 4) → k < chunks.length →
      ((chunks.flatten ++ tail).drop (4 * k)).take 4 = chunks.getD k [] := by
  intro chunks
  induction chunks with
  | nil => intro k tail _ hk; simp at hk
  | cons c cs ih =>
    intro k tail h4 hk
    obtain ⟨a, b, x, y, hc⟩ := len4_cases c (h4 c (List.mem_cons_self _ _))
    subst hc
    cases k with
    | zero =>
      simp [List.flatten_cons, List.append_assoc]
    | succ k' =>
      have h4' : ∀ c ∈ cs, c.length = 4 := fun c hc => h4 c (List.mem_cons_of_mem _ hc)
      have hk' : k' < cs.length := by simpa using hk
      simp only [List.flatten_cons, List.append_assoc, List.getD_cons_succ]
      rw [show (4 * (k' + 1)) = 4 + 4 * k' from by ring, ← List.drop_drop]
      simp only [List.cons_append, List.drop_succ_cons, List.drop_zero]
      exact ih k' tail h4' hk'

theorem getD_freqChunks (freq : Nat → Nat) (k : Nat) (hk : k < 256) :
    (freqChunks freq).getD k [] = toBytesBE4 (freq k) := by
  rw [freqChunks, List.getD_eq_getElem _ _ (by simpa using hk)]
  simp [List.getElem_map, List.getElem_range]

theorem fromBytes_toBytes4 (n : Nat) (h : n < 4294967296) :
    fromBytesBE (toBytesBE4 n) = n := by
  simp [fromBytesBE, toBytesBE4, List.foldl]
  omega

theorem drop_append_cons {α : Type} (x : α) :
    ∀ (l1 t : List α), (l1 ++ x :: t).drop (l1.length + 1) = t := by
  intro l1 t
  induction l1 with
  | nil => rfl
  | cons a s ih => simp

/-! ## Soundness of the executable checkers -/

theorem natListBeq_eq : ∀ (l1 l2 : List Nat), natListBeq l1 l2 = true → l1 = l2 := by
  intro l1
  induction l1 with
  | nil =>
    intro l2 h
    cases l2 with
    | nil => rfl
    | cons b bs => simp [natListBeq] at h
  | cons a as ih =>
    intro l2 h
    cases l2 with
    | nil => simp [natListBeq] at h
    | cons b bs =>
      rw [natListBeq] at h
      split at h
      · rename_i hab
        rw [hab, ih bs h]
      · exact absurd h (by simp)

theorem compressOutIs_sound (data out : List Nat) (h : compressOutIs data out = true) :
    compress data = Except.ok out := by
  rw [compressOutIs] at h
  split at h
  · rename_i c heq
    rw [heq, natListBeq_eq c out h]
  · exact absurd h (by simp)

theorem decompressOutIs_sound (file out : List Nat) (h : decompressOutIs file out = true) :
    decompress file = Except.ok out := by
  rw [decompressOutIs] at h
  split at h
  · rename_i c heq
    rw [heq, natListBeq_eq c out h]
  · exact absurd h (by simp)

theorem decompressCrashes_sound (file : List Nat) (h : decompressCrashes file = true) :
    decompress file = Except.error DecompressError.attributeError := by
  rw [decompressCrashes] at h
  split at h
  · rename_i heq
    exact heq
  · exact absurd h (by simp)

/-! ## Shape of a successful compression -/

theorem compress_ok_shape (data out : List Nat) (h : compress data = Except.ok out) :
    out = (freqChunks (build_frequency_table data)).flatten ++
      paddingOf data :: payloadOf data ∧
    (List.range 256).all
      (fun b => decide (build_frequency_table data b < 4294967296)) = true := by
  simp only [compress] at h
  split at h
  · exact absurd h (by simp)
  · split at h
    · exact absurd h (by simp)
    · rename_i e heq
      split at h
      · rename_i hguard
        injection h with h'
        refine ⟨?_, hguard⟩
        rw [← h']
        simp only [paddingOf, payloadOf, encodedBitsOf, heq, Option.getD_some]
      · exact absurd h (by simp)

theorem compress_pad_byte (data out : List Nat) (h : compress data = Except.ok out) :
    out.getD 1024 0 = paddingOf data := by
  obtain ⟨hout, hguard⟩ := compress_ok_shape data out h
  have h4 : ∀ c ∈ freqChunks (build_frequency_table data), c.length = 4 := by
    intro c hc
    obtain ⟨b, _, hb⟩ := List.mem_map.mp hc
    rw [← hb]
    rfl
  have hJlen : (freqChunks (build_frequency_table data)).flatten.length = 1024 := by
    rw [flatten4_length _ h4]
    simp [freqChunks]
  rw [hout, ← hJlen]
  exact getD_append_cons 0 (paddingOf data) _ (payloadOf data)

/-! ## A frequency table with no support yields no tree -/

theorem build_tree_none (f : Nat → Nat) (h : ∀ b, b < 256 → f b = 0) :
    build_huffman_tree f = OptNode.none := by
  have hfilter : ((List.range 256).map (fun b => (b, f b))).filter
      (fun p => decide (0 < p.2)) = [] := by
    rw [List.filter_eq_nil_iff]
    intro p hp
    obtain ⟨b, hb, hpb⟩ := List.mem_map.mp hp
    rw [← hpb]
    simp [h b (List.mem_range.mp hb)]
  simp only [build_huffman_tree]
  rw [hfilter]
  rfl

/-! ## Claim theorems -/

set_option maxRecDepth 4000

/-- C1.  The round-trip claim fails on the code: for the non-empty one-byte
input `[0x41]` (every occurrence count is 1, far below `2^32`), `compress`
produces the container `container65`, but `decompress` on that container does
not return `[0x41]`; its decode walk moves to the `None` left child of the
single-leaf root and aborts with an uncaught `AttributeError`.  The spec's
intent (round-trip, with the `"0"` code emitted by `generate_codes` for a
single-byte alphabet) is clear, so this is a bug in `decompress`, which never
handles a leaf root. -/
theorem c1_roundtrip_crash :
    compress [65] = Except.ok container65 ∧
    decompress container65 = Except.error DecompressError.attributeError :=
  ⟨compressOutIs_sound [65] container65 rfl, decompressCrashes_sound container65 rfl⟩

/-- C2.  The single-symbol claim fails on the code: for `b = 0x42`, `n = 2`,
`compress` assigns the one-bit code `0` and produces `container66`, but
`decompress` on that container aborts with an uncaught `AttributeError`
(decode walk into the `None` child of the leaf root) instead of emitting two
copies of `0x42`. -/
theorem c2_single_symbol_crash :
    compress [66, 66] = Except.ok container66 ∧
    decompress container66 = Except.error DecompressError.attributeError :=
  ⟨compressOutIs_sound [66, 66] container66 rfl, decompressCrashes_sound container66 rfl⟩

/-- C3.  Determinism: `compress` is a pure function of the input bytes, so
two runs on the same data produce byte-identical containers; moreover the
tree (hence the code table and packed payload) depends only on the frequency
counts of the byte values `0..255`, not on any dict iteration order — the
model's counterpart of `sorted(frequency.items())` normalizing the Python
dict order. -/
theorem c3_determinism :
    (∀ data : List Nat, compress data = compress data) ∧
    (∀ f g : Nat → Nat, (∀ b, b < 256 → f b = g b) →
      build_huffman_tree f = build_huffman_tree g) := by
  refine ⟨fun _ => rfl, fun f g h => ?_⟩
  have hmap : ((List.range 256).map (fun b => (b, f b))) =
      ((List.range 256).map (fun b => (b, g b))) := by
    apply List.map_congr_left
    intro a ha
    rw [h a (List.mem_range.mp ha)]
  simp only [build_huffman_tree]
  rw [hmap]

/-- Witness for C3 at concrete inputs. -/
theorem c3_determinism_witness :
    compress [1, 2] = compress [1, 2] ∧
    build_huffman_tree wFreq = build_huffman_tree wFreq :=
  ⟨c3_determinism.1 [1, 2], c3_determinism.2 wFreq wFreq (fun _ _ => rfl)⟩

/-- C4.  Container layout: every container written by `compress` is, in
order, 256 four-byte big-endian counts for byte values `0..255` ascending
(the slice at offsets `4*b .. 4*b+3` is the big-endian encoding of the
occurrence count of byte `b`, zero for absent bytes), then one byte holding
the pad length at offset 1024, then the packed payload from offset 1025. -/
theorem c4_container_layout (data out : List Nat) (h : compress data = Except.ok out) :
    (∀ b, b < 256 → (out.drop (4 * b)).take 4 = toBytesBE4 (data.count b) ∧
      fromBytesBE ((out.drop (4 * b)).take 4) = data.count b) ∧
    out.take 1024 = (freqChunks (build_frequency_table data)).flatten ∧
    out.getD 1024 0 = paddingOf data ∧
    out.drop 1025 = payloadOf data := by
  obtain ⟨hout, hguard⟩ := compress_ok_shape data out h
  have hall : ∀ b, b < 256 → build_frequency_table data b < 4294967296 := by
    intro b hb
    exact of_decide_eq_true (List.all_eq_true.mp hguard b (List.mem_range.mpr hb))
  have h4 : ∀ c ∈ freqChunks (build_frequency_table data), c.length = 4 := by
    intro c hc
    obtain ⟨b, _, hb⟩ := List.mem_map.mp hc
    rw [← hb]
    rfl
  have hJlen : (freqChunks (build_frequency_table data)).flatten.length = 1024 := by
    rw [flatten4_length _ h4]
    simp [freqChunks]
  refine ⟨?_, ?_, compress_pad_byte data out h, ?_⟩
  · intro b hb
    have hslice : (out.drop (4 * b)).take 4 =
        (freqChunks (build_frequency_table data)).getD b [] := by
      rw [hout]
      exact slice4 (freqChunks _) b _ h4 (by simpa [freqChunks] using hb)
    refine ⟨?_, ?_⟩
    · rw [hslice, getD_freqChunks _ b hb]
      rfl
    · rw [hslice, getD_freqChunks _ b hb, fromBytes_toBytes4 _ (hall b hb)]
      rfl
  · rw [hout, ← hJlen, List.take_left]
  · rw [hout]
    rw [show (1025 : Nat) =
      (freqChunks (build_frequency_table data)).flatten.length + 1 from by omega]
    exact drop_append_cons _ _ _

/-- Witness for C4: the container for `[0x41, 0x41, 0x42]`, whose hypothesis
is discharged by evaluating `compress`. -/
theorem c4_container_layout_witness :
    containerAAB.getD 1024 0 = paddingOf [65, 65, 66] ∧
    containerAAB.drop 1025 = payloadOf [65, 65, 66] :=
  ⟨(c4_container_layout [65, 65, 66] containerAAB
      (compressOutIs_sound [65, 65, 66] containerAAB rfl)).2.2.1,
   (c4_container_layout [65, 65, 66] containerAAB
      (compressOutIs_sound [65, 65, 66] containerAAB rfl)).2.2.2⟩

/-- C5.  The node ordering: `a < b` holds exactly when `a` has strictly
smaller frequency, or the frequencies tie and `a`'s tie-break key is smaller,
where a leaf's key is its byte value and an internal node's key is 256 —
strictly above every valid byte value. -/
theorem c5_node_ordering :
    (∀ a b : HNode, nodeLt a b = true ↔
      (a.freq < b.freq ∨ (a.freq = b.freq ∧ tieKey a < tieKey b))) ∧
    (∀ c f l r, tieKey (HNode.mk (some c) f l r) = c) ∧
    (∀ f l r, tieKey (HNode.mk none f l r) = 256) ∧
    (∀ f l r c, c < 256 → c < tieKey (HNode.mk none f l r)) := by
  refine ⟨fun a b => ?_, fun c f l r => rfl, fun f l r => rfl, fun f l r c hc => hc⟩
  rw [nodeLt]
  split
  · rename_i hfreq
    simp [hfreq]
  · rename_i hfreq
    simp [hfreq]

/-- Witness for C5's guarded conjunct at a concrete byte value. -/
theorem c5_node_ordering_witness :
    (65 : Nat) < 256 ∧ 65 < tieKey (HNode.mk none 1 OptNode.none OptNode.none) :=
  ⟨by decide, c5_node_ordering.2.2.2 1 OptNode.none OptNode.none 65 (by decide)⟩

/-- C6.  Prefix-code property: for a frequency table with at least one
positive count, in the code table generated from the built tree no byte
value's code is a prefix (in particular no proper prefix) of a different byte
value's code, and the table's domain is exactly the byte values `0..255` with
positive count. -/
theorem c6_prefix_code (freq : Nat → Nat) (hne : ∃ b, b < 256 ∧ 0 < freq b) :
    (∀ p ∈ generate_codes (build_huffman_tree freq) [],
      ∀ q ∈ generate_codes (build_huffman_tree freq) [],
        p.1 ≠ q.1 → ¬ p.2 <+: q.2) ∧
    (∀ b : Nat, (∃ c, (b, c) ∈ generate_codes (build_huffman_tree freq) []) ↔
      (b < 256 ∧ 0 < freq b)) := by
  obtain ⟨root, hroot, hperm⟩ := build_tree_perm freq hne
  rw [hroot]
  constructor
  · intro p hp q hq hne'
    have hpair := genCodes_pairwise (OptNode.some root) []
    have hsymm : Symmetric (fun p q : Nat × List Bool => ¬ p.2 <+: q.2 ∧ ¬ q.2 <+: p.2) :=
      fun x y hxy => ⟨hxy.2, hxy.1⟩
    have hpq : p ≠ q := fun hpq => hne' (by rw [hpq])
    exact (hpair.forall hsymm hp hq hpq).1
  · intro b
    constructor
    · rintro ⟨c, hc⟩
      have hmem : b ∈ (generate_codes (OptNode.some root) []).map Prod.fst :=
        List.mem_map_of_mem Prod.fst hc
      rw [genCodes_keys] at hmem
      have hmem' : b ∈ leafChars root := hmem
      exact (mem_supportList freq b).mp (hperm.mem_iff.mp hmem')
    · rintro ⟨hb, hf⟩
      have h1 : b ∈ leafChars root :=
        hperm.mem_iff.mpr ((mem_supportList freq b).mpr ⟨hb, hf⟩)
      have h2 : b ∈ (generate_codes (OptNode.some root) []).map Prod.fst := by
        rw [genCodes_keys]
        exact h1
      obtain ⟨p, hp, hpb⟩ := List.mem_map.mp h2
      refine ⟨p.2, ?_⟩
      cases p
      cases hpb
      exact hp

/-- Witness for C6 at the two-symbol frequency table `wFreq`. -/
theorem c6_prefix_code_witness :
    (∃ b, b < 256 ∧ 0 < wFreq b) ∧
    (∀ b : Nat, (∃ c, (b, c) ∈ generate_codes (build_huffman_tree wFreq) []) ↔
      (b < 256 ∧ 0 < wFreq b)) :=
  ⟨⟨65, by decide⟩, (c6_prefix_code wFreq ⟨65, by decide⟩).2⟩

/-- C7.  Padding formula: the pad length stored at offset 1024 of every
container written by `compress` equals `(8 - total_bit_length % 8) % 8`,
where `total_bit_length` is the length of the concatenation of the codes of
all input bytes; it lies in `[0, 7]`, and after padding the packed bit
sequence's length is a multiple of 8. -/
theorem c7_padding (data out : List Nat) (h : compress data = Except.ok out) :
    out.getD 1024 0 = (8 - ((encodedBitsOf data).getD []).length % 8) % 8 ∧
    out.getD 1024 0 < 8 ∧
    (((encodedBitsOf data).getD []).length + out.getD 1024 0) % 8 = 0 := by
  rw [compress_pad_byte data out h, paddingOf]
  refine ⟨rfl, ?_, ?_⟩
  · exact Nat.mod_lt _ (by omega)
  · omega

/-- Witness for C7: the container for `[0x41, 0x41, 0x42]`. -/
theorem c7_padding_witness :
    containerAAB.getD 1024 0 < 8 ∧
    (((encodedBitsOf [65, 65, 66]).getD []).length + containerAAB.getD 1024 0) % 8 = 0 :=
  ⟨(c7_padding [65, 65, 66] containerAAB
      (compressOutIs_sound [65, 65, 66] containerAAB rfl)).2.1,
   (c7_padding [65, 65, 66] containerAAB
      (compressOutIs_sound [65, 65, 66] containerAAB rfl)).2.2⟩

/-- C8.  Empty input: compressing a zero-length source stops with the
empty-input error, before the output file is opened, so no output is
written. -/
theorem c8_empty_input (data : List Nat) (h : data.length = 0) :
    compress data = Except.error CompressError.emptyInput := by
  rw [List.length_eq_zero.mp h]
  rfl

/-- Witness for C8 at the empty byte sequence. -/
theorem c8_empty_input_witness :
    ([] : List Nat).length = 0 ∧
    compress [] = Except.error CompressError.emptyInput :=
  ⟨rfl, c8_empty_input [] rfl⟩

/-- C9, counterexample.  A 4-byte input file — far shorter than the 1025-byte
header — does NOT fail with the invalid-container error: `decompress` parses
the first short read as count 1 for byte value 0, builds a single-leaf tree,
decodes the empty payload, and succeeds, writing an empty output file. -/
theorem c9_short_file_counterexample :
    ([0, 0, 0, 1] : List Nat).length < 1025 ∧
    decompress [0, 0, 0, 1] = Except.ok [] :=
  ⟨by decide, decompressOutIs_sound [0, 0, 0, 1] [] rfl⟩

/-- C9, amended.  `decompress` fails with the invalid-container error exactly
on the strength of the parsed counts: whenever all 256 four-byte counts, as
parsed from the (possibly short) file with missing bytes reading as nothing,
are zero, it fails with `InvalidContainer` and writes no output.  File length
alone is never checked. -/
theorem c9_all_zero_counts (file : List Nat)
    (h : ∀ b, b < 256 → fromBytesBE ((file.drop (4 * b)).take 4) = 0) :
    decompress file = Except.error DecompressError.invalidHuffmanData := by
  simp only [decompress]
  rw [build_tree_none _ h]

/-- Witness for the amended C9 at the empty file. -/
theorem c9_all_zero_counts_witness :
    (∀ b : Nat, b < 256 → fromBytesBE ((([] : List Nat).drop (4 * b)).take 4) = 0) ∧
    decompress [] = Except.error DecompressError.invalidHuffmanData :=
  ⟨fun b _ => by simp [fromBytesBE],
   c9_all_zero_counts [] (fun b _ => by simp [fromBytesBE])⟩

/-- C10.  Decode-walk safety: for a frequency table with two distinct byte
values of positive count, the built tree exists, every internal node of it
has two non-`None` children (`okNode`), its root is internal, and therefore
the bit-by-bit decode walk of `decompress` (0 left, 1 right, reset to the
root at each leaf) never dereferences a missing child, for every bit
sequence. -/
theorem c10_decode_walk_safety (freq : Nat → Nat) (b1 b2 : Nat) (h1 : b1 < 256)
    (h2 : b2 < 256) (hne : b1 ≠ b2) (hf1 : 0 < freq b1) (hf2 : 0 < freq b2) :
    ∃ root, build_huffman_tree freq = OptNode.some root ∧ okNode root = true ∧
      root.char = none ∧
      ∀ bits : List Bool, (decodeBits root bits root).isSome = true := by
  obtain ⟨root, hroot, hok, hchar⟩ := build_tree_ok freq b1 b2 h1 h2 hne hf1 hf2
  exact ⟨root, hroot, hok, hchar,
    fun bits => decode_safe root hok hchar bits root hok hchar⟩

/-- Witness for C10 at the two-symbol frequency table `wFreq`. -/
theorem c10_decode_walk_safety_witness :
    (0 < wFreq 65) ∧ (0 < wFreq 66) ∧
    ∃ root, build_huffman_tree wFreq = OptNode.some root ∧ okNode root = true ∧
      root.char = none ∧
      ∀ bits : List Bool, (decodeBits root bits root).isSome = true :=
  ⟨by decide, by decide,
   c10_decode_walk_safety wFreq 65 66 (by decide) (by decide) (by decide)
     (by decide) (by decide)⟩
